import Mathlib

/-!
Verification of the ai-chat-protocol SDKs: the NDJSON stream decoder
(spec section 4.1) and the completion request builders / response
classification of the TypeScript and C# clients (spec sections 4.2, 7).

Strings are modelled as lists of characters; byte chunks are lists of
characters; the caller-supplied decode function is a partial function
into an arbitrary result type.
-/

namespace AIChat

/-- Modelled from the spec: the NDJSON decoder's line scan
(src/sdk/js/src/util/ndjson.ts and JsonLinesAsyncEnumerator.cs are not in
the source tree; spec section 4.1: "repeatedly scan for a line-terminator
byte, for each terminator found, extract the bytes preceding it as a
candidate line, remove the consumed bytes including the terminator from
the buffer"). Returns the complete lines found and the remaining buffer
content after the last terminator. -/
def splitOnNl : List Char → List (List Char) × List Char
  | [] => ([], [])
  | c :: rest =>
    let p := splitOnNl rest
    if c = '\n' then
      ([] :: p.1, p.2)
    else
      match p.1 with
      | [] => ([], c :: p.2)
      | l :: ls => ((c :: l) :: ls, p.2)

/-- Modelled from the spec: "strip a trailing carriage-return if present"
(spec section 4.1). -/
def stripCr (l : List Char) : List Char :=
  if l.getLast? = some '\r' then l.dropLast else l

/-- Modelled from the spec: processing of a batch of complete lines
(spec section 4.1): strip a trailing carriage-return, skip the line if the
resulting text is empty, otherwise decode it and yield the result; a decode
failure aborts the sequence, surfacing the offending line content.
Returns the yielded items and, on failure, the offending line text. -/
def processLines (decode : List Char → Option T) : List (List Char) → List T × Option (List Char)
  | [] => ([], none)
  | l :: ls =>
    let t := stripCr l
    if t = [] then processLines decode ls
    else
      match decode t with
      | none => ([], some t)
      | some x =>
        let p := processLines decode ls
        (x :: p.1, p.2)

/-- Modelled from the spec: the full NDJSON stream decoder over a chunked
input (spec section 4.1): maintain a growable buffer; on each received
chunk append it and extract and process every complete line; a decode
failure aborts; when the chunk stream ends, a non-empty remainder is
treated as the final line and decoded, an empty remainder terminates the
sequence without producing anything further. The result is the list of
yielded items in order, paired with the offending line content when a
decode failure aborted the stream. -/
def runDecoder (decode : List Char → Option T) : List (List Char) → List Char → List T × Option (List Char)
  | [], buf =>
    if buf = [] then ([], none)
    else
      match decode buf with
      | none => ([], some buf)
      | some x => ([x], none)
  | c :: cs, buf =>
    let p := splitOnNl (buf ++ c)
    let q := processLines decode p.1
    match q.2 with
    | some e => (q.1, some e)
    | none =>
      let rest := runDecoder decode cs p.2
      (q.1 ++ rest.1, rest.2)

/-- One-shot reference decoder over the whole concatenated input. -/
def oneShot (decode : List Char → Option T) (s : List Char) : List T × Option (List Char) :=
  let p := splitOnNl s
  let q := processLines decode p.1
  match q.2 with
  | some e => (q.1, some e)
  | none =>
    if p.2 = [] then (q.1, none)
    else
      match decode p.2 with
      | none => (q.1, some p.2)
      | some x => (q.1 ++ [x], none)

/-- The concatenation of a list of chunks. -/
def joinChunks (cs : List (List Char)) : List Char := cs.foldr (· ++ ·) []

/-- Joining encoded messages with a newline separator (no trailing
terminator). -/
def joinNl : List (List Char) → List Char
  | [] => []
  | [x] => x
  | x :: y :: xs => x ++ '\n' :: joinNl (y :: xs)

theorem splitOnNl_no_nl {s : List Char} (h : '\n' ∉ s) : splitOnNl s = ([], s) := by
  induction s with
  | nil => rfl
  | cons c rest ih =>
    have hc : c ≠ '\n' := fun hc => h (hc ▸ List.mem_cons_self c rest)
    have hr : '\n' ∉ rest := fun hm => h (List.mem_cons_of_mem c hm)
    simp [splitOnNl, ih hr, hc]

theorem splitOnNl_rest_no_nl (s : List Char) : '\n' ∉ (splitOnNl s).2 := by
  induction s with
  | nil => simp [splitOnNl]
  | cons c rest ih =>
    by_cases hc : c = '\n'
    · simpa [splitOnNl, hc] using ih
    · cases hp : (splitOnNl rest).1 with
      | nil =>
        simp only [splitOnNl, hp, if_neg hc, List.mem_cons]
        rintro (h | h)
        · exact hc h.symm
        · exact ih h
      | cons l ls => simpa [splitOnNl, hp, hc] using ih

theorem splitOnNl_lines_nil {s : List Char} (h : (splitOnNl s).1 = []) :
    (splitOnNl s).2 = s := by
  induction s with
  | nil => rfl
  | cons c rest ih =>
    by_cases hc : c = '\n'
    · simp [splitOnNl, hc] at h
    · cases hp : (splitOnNl rest).1 with
      | nil =>
        have := ih hp
        simp [splitOnNl, hc, hp, this]
      | cons l ls => simp [splitOnNl, hc, hp] at h

theorem splitOnNl_append (a b : List Char) :
    splitOnNl (a ++ b) =
      ((splitOnNl a).1 ++ (splitOnNl ((splitOnNl a).2 ++ b)).1,
        (splitOnNl ((splitOnNl a).2 ++ b)).2) := by
  induction a with
  | nil => simp [splitOnNl]
  | cons c a' ih =>
    by_cases hc : c = '\n'
    · simp [splitOnNl, hc, ih]
    · cases hp : (splitOnNl a').1 with
      | nil =>
        have hr := splitOnNl_lines_nil hp
        simp [splitOnNl, hc, hp, hr]
      | cons l ls =>
        have h1 : (splitOnNl (a' ++ b)).1 =
            l :: (ls ++ (splitOnNl ((splitOnNl a').2 ++ b)).1) := by
          rw [ih, hp]; rfl
        have h2 : (splitOnNl (a' ++ b)).2 = (splitOnNl ((splitOnNl a').2 ++ b)).2 := by
          rw [ih]
        simp only [List.cons_append, splitOnNl, if_neg hc, List.append_eq, h1, h2, hp]

theorem splitOnNl_line_append {a : List Char} (h : '\n' ∉ a) (b : List Char) :
    splitOnNl (a ++ '\n' :: b) = (a :: (splitOnNl b).1, (splitOnNl b).2) := by
  induction a with
  | nil => simp [splitOnNl]
  | cons c a' ih =>
    have hc : c ≠ '\n' := fun hc => h (hc ▸ List.mem_cons_self c a')
    have ha : '\n' ∉ a' := fun hm => h (List.mem_cons_of_mem c hm)
    simp [splitOnNl, ih ha, hc]

theorem processLines_eq_append (decode : List Char → Option T) (l1 l2 : List (List Char)) :
    processLines decode (l1 ++ l2) =
      (if (processLines decode l1).2 = none
        then ((processLines decode l1).1 ++ (processLines decode l2).1,
          (processLines decode l2).2)
        else processLines decode l1) := by
  induction l1 with
  | nil => simp [processLines]
  | cons l ls ih =>
    by_cases ht : stripCr l = []
    · simp [List.cons_append, processLines, ht, ih]
    · cases hd : decode (stripCr l) with
      | none => simp [List.cons_append, processLines, ht, hd]
      | some x =>
        by_cases he : (processLines decode ls).2 = none
        · simp [List.cons_append, processLines, ht, hd, ih, he]
        · simp [List.cons_append, processLines, ht, hd, ih, he]

theorem processLines_append_err {decode : List Char → Option T} {l1 : List (List Char)}
    {e : List Char} (h : (processLines decode l1).2 = some e) (l2 : List (List Char)) :
    processLines decode (l1 ++ l2) = ((processLines decode l1).1, some e) := by
  rw [processLines_eq_append, if_neg (by simp [h]), ← h]

theorem processLines_append_ok {decode : List Char → Option T} {l1 : List (List Char)}
    (h : (processLines decode l1).2 = none) (l2 : List (List Char)) :
    processLines decode (l1 ++ l2) =
      ((processLines decode l1).1 ++ (processLines decode l2).1,
        (processLines decode l2).2) := by
  rw [processLines_eq_append, if_pos h]

theorem oneShot_append_err {decode : List Char → Option T} {a e : List Char}
    (h : (processLines decode (splitOnNl a).1).2 = some e) (b : List Char) :
    oneShot decode (a ++ b) = ((processLines decode (splitOnNl a).1).1, some e) := by
  have hp := processLines_append_err h (splitOnNl ((splitOnNl a).2 ++ b)).1
  simp [oneShot, splitOnNl_append a b, hp]

theorem oneShot_append_ok {decode : List Char → Option T} {a : List Char}
    (h : (processLines decode (splitOnNl a).1).2 = none) (b : List Char) :
    oneShot decode (a ++ b) =
      ((processLines decode (splitOnNl a).1).1 ++ (oneShot decode ((splitOnNl a).2 ++ b)).1,
        (oneShot decode ((splitOnNl a).2 ++ b)).2) := by
  have hp := processLines_append_ok h (splitOnNl ((splitOnNl a).2 ++ b)).1
  cases hz : (processLines decode (splitOnNl ((splitOnNl a).2 ++ b)).1).2 with
  | some e => simp [oneShot, splitOnNl_append a b, hp, hz]
  | none =>
    by_cases hr : (splitOnNl ((splitOnNl a).2 ++ b)).2 = []
    · simp [oneShot, splitOnNl_append a b, hp, hz, hr]
    · cases hd : decode (splitOnNl ((splitOnNl a).2 ++ b)).2 with
      | none => simp [oneShot, splitOnNl_append a b, hp, hz, hr, hd]
      | some x => simp [oneShot, splitOnNl_append a b, hp, hz, hr, hd]

/-- Feeding the chunks one by one through the buffering decoder computes the
same result as the one-shot decoder on the concatenation of all chunks. -/
theorem runDecoder_eq_oneShot (decode : List Char → Option T) (cs : List (List Char)) :
    ∀ (buf : List Char), '\n' ∉ buf →
      runDecoder decode cs buf = oneShot decode (buf ++ joinChunks cs) := by
  induction cs with
  | nil =>
    intro buf h
    have hj : joinChunks ([] : List (List Char)) = [] := rfl
    rw [hj, List.append_nil]
    by_cases hb : buf = []
    · subst hb; rfl
    · cases hd : decode buf with
      | none => simp [runDecoder, oneShot, splitOnNl_no_nl h, processLines, hb, hd]
      | some x => simp [runDecoder, oneShot, splitOnNl_no_nl h, processLines, hb, hd]
  | cons c cs ih =>
    intro buf h
    have hj : joinChunks (c :: cs) = c ++ joinChunks cs := rfl
    rw [hj, ← List.append_assoc]
    cases hq : (processLines decode (splitOnNl (buf ++ c)).1).2 with
    | some e =>
      rw [oneShot_append_err hq]
      simp [runDecoder, hq]
    | none =>
      rw [oneShot_append_ok hq]
      have hrest := ih (splitOnNl (buf ++ c)).2 (splitOnNl_rest_no_nl _)
      simp [runDecoder, hq, hrest]

theorem splitOnNl_rest_nil {a : List Char} (h : a = [] ∨ a.getLast? = some '\n') :
    (splitOnNl a).2 = [] := by
  rcases h with h | h
  · subst h; rfl
  · induction a using List.reverseRecOn with
    | nil => simp at h
    | append_singleton as x _ih =>
      rw [List.getLast?_concat] at h
      have hx : x = '\n' := by
        have := h
        injection this
      subst hx
      have hnr : '\n' ∉ (splitOnNl as).2 := splitOnNl_rest_no_nl as
      have h2 := splitOnNl_line_append hnr ([] : List Char)
      simp [splitOnNl_append as (['\n'] : List Char), h2, splitOnNl]

theorem splitOnNl_boundary_append {a : List Char} (h : (splitOnNl a).2 = [])
    (b : List Char) :
    splitOnNl (a ++ b) = ((splitOnNl a).1 ++ (splitOnNl b).1, (splitOnNl b).2) := by
  rw [splitOnNl_append a b, h, List.nil_append]

theorem processLines_ok_none {decode : List Char → Option T} {ls : List (List Char)}
    (h : ∀ l ∈ ls, stripCr l = [] ∨ (decode (stripCr l)).isSome = true) :
    (processLines decode ls).2 = none := by
  induction ls with
  | nil => simp [processLines]
  | cons l ls ih =>
    have hrest := ih (fun x hx => h x (List.mem_cons_of_mem l hx))
    rcases h l (List.mem_cons_self l ls) with ht | hd
    · simp [processLines, ht, hrest]
    · rcases Option.isSome_iff_exists.1 hd with ⟨x, hx⟩
      by_cases ht : stripCr l = []
      · simp [processLines, ht, hrest]
      · simp [processLines, ht, hx, hrest]

theorem processLines_skip_blank (decode : List Char → Option T)
    (xs ys : List (List Char)) :
    processLines decode (xs ++ [] :: ys) = processLines decode (xs ++ ys) := by
  induction xs with
  | nil => simp [processLines, stripCr]
  | cons z zs ih =>
    by_cases ht : stripCr z = []
    · simp [List.cons_append, processLines, ht, ih]
    · cases hd : decode (stripCr z) with
      | none => simp [List.cons_append, processLines, ht, hd]
      | some x => simp [List.cons_append, processLines, ht, hd, ih]

theorem processLines_congr_line {decode : List Char → Option T} {l l' : List Char}
    (h : stripCr l = stripCr l') (xs ys : List (List Char)) :
    processLines decode (xs ++ l :: ys) = processLines decode (xs ++ l' :: ys) := by
  induction xs with
  | nil => simp [processLines, h]
  | cons z zs ih =>
    by_cases ht : stripCr z = []
    · simp [List.cons_append, processLines, ht, ih]
    · cases hd : decode (stripCr z) with
      | none => simp [List.cons_append, processLines, ht, hd]
      | some x => simp [List.cons_append, processLines, ht, hd, ih]

theorem splitOnNl_rest_getLast {s : List Char} (h : (splitOnNl s).2 ≠ []) :
    (splitOnNl s).2.getLast? = s.getLast? := by
  induction s with
  | nil => simp [splitOnNl] at h
  | cons c rest ih =>
    by_cases hc : c = '\n'
    · simp only [splitOnNl, if_pos hc] at h ⊢
      cases rest with
      | nil => exact absurd rfl h
      | cons r rs =>
        rw [List.getLast?_cons_cons]
        exact ih h
    · cases hp : (splitOnNl rest).1 with
      | nil =>
        have hr := splitOnNl_lines_nil hp
        simp [splitOnNl, hc, hp, hr]
      | cons l ls =>
        simp only [splitOnNl, if_neg hc, hp] at h ⊢
        cases rest with
        | nil => simp [splitOnNl] at hp
        | cons r rs =>
          rw [List.getLast?_cons_cons]
          exact ih h

theorem oneShot_cons_line {decode : List Char → Option T} {a : List Char}
    (hnl : '\n' ∉ a) (hs : stripCr a = a) (hne : a ≠ []) {x : T}
    (hd : decode a = some x) (s : List Char) :
    oneShot decode (a ++ '\n' :: s) = (x :: (oneShot decode s).1, (oneShot decode s).2) := by
  cases hz : (processLines decode (splitOnNl s).1).2 with
  | some e =>
    simp [oneShot, splitOnNl_line_append hnl, processLines, hs, hne, hd, hz]
  | none =>
    by_cases hr : (splitOnNl s).2 = []
    · simp [oneShot, splitOnNl_line_append hnl, processLines, hs, hne, hd, hz, hr]
    · cases hds : decode (splitOnNl s).2 with
      | none => simp [oneShot, splitOnNl_line_append hnl, processLines, hs, hne, hd, hz, hds, hr]
      | some y => simp [oneShot, splitOnNl_line_append hnl, processLines, hs, hne, hd, hz, hds, hr]

theorem oneShot_joinNl (decode : List Char → Option T) (encode : T → List Char) :
    ∀ M : List T,
      (∀ m ∈ M, encode m ≠ [] ∧ '\n' ∉ encode m ∧ (encode m).getLast? ≠ some '\r') →
      (∀ m ∈ M, decode (encode m) = some m) →
      oneShot decode (joinNl (M.map encode)) = (M, none) := by
  intro M
  induction M with
  | nil => intro _ _; rfl
  | cons m M' ih =>
    intro henc hdec
    obtain ⟨hne, hnl, hcr⟩ := henc m (List.mem_cons_self m M')
    have hstrip : stripCr (encode m) = encode m := by rw [stripCr, if_neg hcr]
    have hdm : decode (encode m) = some m := hdec m (List.mem_cons_self m M')
    cases M' with
    | nil =>
      simp [joinNl, oneShot, splitOnNl_no_nl hnl, processLines, hne, hdm]
    | cons m2 M'' =>
      have ih' := ih (fun x hx => henc x (List.mem_cons_of_mem m hx))
        (fun x hx => hdec x (List.mem_cons_of_mem m hx))
      have hj : joinNl ((m :: m2 :: M'').map encode) =
          encode m ++ '\n' :: joinNl ((m2 :: M'').map encode) := rfl
      rw [hj, oneShot_cons_line hnl hstrip hne hdm, ih']

/-- Modelled from the spec: end-of-stream handling of the remaining buffer
(spec section 4.1): a non-empty remainder with no trailing terminator is
treated as the final line and decoded; an empty remainder terminates the
sequence without producing anything further. -/
def finalStep (decode : List Char → Option T) (s : List Char) : List T × Option (List Char) :=
  if s = [] then ([], none)
  else
    match decode s with
    | none => ([], some s)
    | some x => ([x], none)

/-- Example encoder used by the concrete witnesses: message 1 encodes to
the text of a one-field JSON object with value 1, message 2 likewise. -/
def encodeEx : Nat → List Char
  | 1 => ['\x7b', '"', 'a', '"', ':', '1', '\x7d']
  | _ => ['\x7b', '"', 'a', '"', ':', '2', '\x7d']

/-- Example decode function used by the concrete witnesses: the partial
inverse of `encodeEx`, failing on any other line. -/
def decodeEx (l : List Char) : Option Nat :=
  if l = encodeEx 1 then some 1
  else if l = encodeEx 2 then some 2
  else none

/-- C1: for every finite sequence of messages whose encodings are non-blank
single lines, and every partition of the newline-join of the encodings into
arbitrary chunks (including splits mid-line), the NDJSON stream decoder
yields exactly the message sequence, in order, with no error. -/
theorem ndjson_chunked_roundtrip (decode : List Char → Option T) (encode : T → List Char)
    (M : List T)
    (henc : ∀ m ∈ M, encode m ≠ [] ∧ '\n' ∉ encode m ∧ (encode m).getLast? ≠ some '\r')
    (hdec : ∀ m ∈ M, decode (encode m) = some m)
    (cs : List (List Char)) (hcs : joinChunks cs = joinNl (M.map encode)) :
    runDecoder decode cs [] = (M, none) := by
  rw [runDecoder_eq_oneShot decode cs [] (by simp), List.nil_append, hcs]
  exact oneShot_joinNl decode encode M henc hdec

theorem ndjson_chunked_roundtrip_witness :
    runDecoder decodeEx
      [['\x7b', '"', 'a', '"', ':', '1', '\x7d', '\n', '\x7b', '"', 'a', '"', ':'],
        ['2', '\x7d']] [] = ([1, 2], none) :=
  ndjson_chunked_roundtrip decodeEx encodeEx [1, 2] (by decide) (by decide) _ (by decide)

/-- C2: for every input stream containing a line on which the decode
function fails (after carriage-return stripping, and non-blank), the
decoder yields exactly the items of the preceding lines, surfaces a decode
error identifying the offending line content, and yields no further items,
regardless of what follows the failing line. -/
theorem ndjson_decode_error_aborts (decode : List Char → Option T)
    (cs : List (List Char)) (l1 l2 : List (List Char)) (b rest : List Char)
    (hsplit : splitOnNl (joinChunks cs) = (l1 ++ b :: l2, rest))
    (hok : ∀ l ∈ l1, stripCr l = [] ∨ (decode (stripCr l)).isSome = true)
    (hb : stripCr b ≠ []) (hbf : decode (stripCr b) = none) :
    runDecoder decode cs [] = ((processLines decode l1).1, some (stripCr b)) := by
  rw [runDecoder_eq_oneShot decode cs [] (by simp), List.nil_append]
  have h1 : (processLines decode l1).2 = none := processLines_ok_none hok
  have h2 : processLines decode (b :: l2) = ([], some (stripCr b)) := by
    simp [processLines, hb, hbf]
  have h4 : processLines decode (l1 ++ b :: l2) =
      ((processLines decode l1).1, some (stripCr b)) := by
    rw [processLines_append_ok h1, h2]
    simp
  simp [oneShot, hsplit, h4]

theorem ndjson_decode_error_aborts_witness :
    runDecoder decodeEx
      [encodeEx 1 ++ '\n' :: 'b' :: 'a' :: 'd' :: '\n' :: encodeEx 2 ++ ['\n']] [] =
      ([1], some ['b', 'a', 'd']) := by
  have h := ndjson_decode_error_aborts decodeEx
    [encodeEx 1 ++ '\n' :: 'b' :: 'a' :: 'd' :: '\n' :: encodeEx 2 ++ ['\n']]
    [encodeEx 1] [encodeEx 2] ['b', 'a', 'd'] []
    (by decide) (by decide) (by decide) (by decide)
  rw [h]
  decide

/-- C3: a blank line never produces an output item: inserting an extra
line terminator at any line boundary of the input (creating an empty line)
leaves the decoder's output unchanged, for every chunking of either input. -/
theorem ndjson_blank_line_no_item (decode : List Char → Option T)
    (a b : List Char) (ha : a = [] ∨ a.getLast? = some '\n')
    (cs1 cs2 : List (List Char))
    (h1 : joinChunks cs1 = a ++ '\n' :: b) (h2 : joinChunks cs2 = a ++ b) :
    runDecoder decode cs1 [] = runDecoder decode cs2 [] := by
  have ha' : (splitOnNl a).2 = [] := splitOnNl_rest_nil ha
  rw [runDecoder_eq_oneShot decode cs1 [] (by simp),
    runDecoder_eq_oneShot decode cs2 [] (by simp),
    List.nil_append, List.nil_append, h1, h2]
  have hs1 : splitOnNl (a ++ '\n' :: b) =
      ((splitOnNl a).1 ++ [] :: (splitOnNl b).1, (splitOnNl b).2) := by
    rw [splitOnNl_boundary_append ha' ('\n' :: b)]
    simp [splitOnNl]
  have hs2 : splitOnNl (a ++ b) = ((splitOnNl a).1 ++ (splitOnNl b).1, (splitOnNl b).2) :=
    splitOnNl_boundary_append ha' b
  have hp := processLines_skip_blank decode ((splitOnNl a).1) ((splitOnNl b).1)
  simp [oneShot, hs1, hs2, hp]

theorem ndjson_blank_line_no_item_witness :
    runDecoder decodeEx [('\n' :: '\n' :: encodeEx 1 ++ ['\n', '\n'])] [] =
      runDecoder decodeEx [('\n' :: encodeEx 1 ++ ['\n', '\n'])] [] ∧
    runDecoder decodeEx [('\n' :: '\n' :: encodeEx 1 ++ ['\n', '\n'])] [] = ([1], none) := by
  constructor
  · exact ndjson_blank_line_no_item decodeEx [] ('\n' :: encodeEx 1 ++ ['\n', '\n'])
      (Or.inl rfl) _ _ (by decide) (by decide)
  · decide

/-- C4: when the chunk stream ends, a non-empty remainder with no trailing
terminator is decoded as the final line and yielded exactly once, and an
empty remainder produces nothing further: after a cleanly terminated,
error-free prefix, the decoder's output is the prefix's items extended by
exactly the end-of-stream step on the remainder. -/
theorem ndjson_final_remainder (decode : List Char → Option T)
    (cs : List (List Char)) (p s : List Char)
    (hj : joinChunks cs = p ++ s)
    (hp : p = [] ∨ p.getLast? = some '\n')
    (hs : '\n' ∉ s)
    (herr : (processLines decode (splitOnNl p).1).2 = none) :
    runDecoder decode cs [] =
      ((processLines decode (splitOnNl p).1).1 ++ (finalStep decode s).1,
        (finalStep decode s).2) := by
  have hp' : (splitOnNl p).2 = [] := splitOnNl_rest_nil hp
  rw [runDecoder_eq_oneShot decode cs [] (by simp), List.nil_append, hj]
  have hsplit : splitOnNl (p ++ s) = ((splitOnNl p).1 ++ [], s) := by
    rw [splitOnNl_boundary_append hp' s, splitOnNl_no_nl hs]
  by_cases hse : s = []
  · simp [oneShot, hsplit, herr, hse, hp', finalStep]
  · cases hd : decode s with
    | none => simp [oneShot, hsplit, herr, hse, hd, finalStep]
    | some x => simp [oneShot, hsplit, herr, hse, hd, finalStep]

theorem ndjson_final_remainder_witness :
    runDecoder decodeEx [encodeEx 1 ++ ['\n'], encodeEx 2] [] = ([1, 2], none) := by
  have h := ndjson_final_remainder decodeEx [encodeEx 1 ++ ['\n'], encodeEx 2]
    (encodeEx 1 ++ ['\n']) (encodeEx 2) (by decide) (by decide) (by decide) (by decide)
  rw [h]
  decide

/-- C8: a single trailing carriage-return is stripped from each extracted
line before the emptiness test and the decode call: replacing a bare
newline terminator by a carriage-return newline pair (when the line does
not already end in a carriage-return) leaves the decoder's output
unchanged, for every chunking of either input. -/
theorem ndjson_crlf_strip (decode : List Char → Option T)
    (u v : List Char) (hu : u.getLast? ≠ some '\r')
    (cs1 cs2 : List (List Char))
    (h1 : joinChunks cs1 = u ++ '\r' :: '\n' :: v)
    (h2 : joinChunks cs2 = u ++ '\n' :: v) :
    runDecoder decode cs1 [] = runDecoder decode cs2 [] := by
  rw [runDecoder_eq_oneShot decode cs1 [] (by simp),
    runDecoder_eq_oneShot decode cs2 [] (by simp),
    List.nil_append, List.nil_append, h1, h2]
  have hnr : '\n' ∉ (splitOnNl u).2 := splitOnNl_rest_no_nl u
  have hnr' : '\n' ∉ (splitOnNl u).2 ++ ['\r'] := by
    intro hm
    rcases List.mem_append.1 hm with hm | hm
    · exact hnr hm
    · simp at hm
  have hx : (splitOnNl u).2 ++ '\r' :: '\n' :: v = ((splitOnNl u).2 ++ ['\r']) ++ '\n' :: v := by
    simp
  have e1 : splitOnNl (u ++ '\r' :: '\n' :: v) =
      ((splitOnNl u).1 ++ ((splitOnNl u).2 ++ ['\r']) :: (splitOnNl v).1, (splitOnNl v).2) := by
    rw [splitOnNl_append u ('\r' :: '\n' :: v), hx, splitOnNl_line_append hnr' v]
  have e2 : splitOnNl (u ++ '\n' :: v) =
      ((splitOnNl u).1 ++ (splitOnNl u).2 :: (splitOnNl v).1, (splitOnNl v).2) := by
    rw [splitOnNl_append u ('\n' :: v), splitOnNl_line_append hnr v]
  have hstrip : stripCr ((splitOnNl u).2 ++ ['\r']) = stripCr (splitOnNl u).2 := by
    by_cases hre : (splitOnNl u).2 = []
    · rw [hre]; decide
    · have hlast : (splitOnNl u).2.getLast? = u.getLast? := splitOnNl_rest_getLast hre
      have hg1 : ((splitOnNl u).2 ++ ['\r']).getLast? = some '\r' := by simp
      have hg2 : (splitOnNl u).2.getLast? ≠ some '\r' := by rw [hlast]; exact hu
      rw [stripCr, if_pos hg1, stripCr, if_neg hg2]
      simp
  have hpl := @processLines_congr_line _ decode _ _ hstrip
    ((splitOnNl u).1) ((splitOnNl v).1)
  simp [oneShot, e1, e2, hpl]

theorem ndjson_crlf_strip_witness :
    runDecoder decodeEx [encodeEx 1 ++ ['\r', '\n']] [] =
      runDecoder decodeEx [encodeEx 1 ++ ['\n']] [] ∧
    runDecoder decodeEx [encodeEx 1 ++ ['\r', '\n']] [] = ([1], none) := by
  constructor
  · exact ndjson_crlf_strip decodeEx (encodeEx 1) [] (by decide) _ _ (by decide) (by decide)
  · decide

/-! The TypeScript client (src/sdk/js/src/client.ts). -/

/-- Completion options of the TypeScript client: optional context and
session state (models/index.ts AIChatCompletionOptions). -/
structure AIChatCompletionOptions (Ctx St : Type) where
  context : Option Ctx
  sessionState : Option St

/-- The JSON request body built by the TypeScript client (client.ts
lines 78-83 and 107-112). -/
structure JsRequestBody (Msg Ctx St : Type) where
  messages : List Msg
  stream : Bool
  context : Option Ctx
  sessionState : Option St

/-- The request parameters built by the TypeScript client: headers plus
JSON body. -/
structure JsRequestParameters (Msg Ctx St : Type) where
  headers : List (String × String)
  body : JsRequestBody Msg Ctx St

/-- Embeds the request construction of AIChatProtocolClient.getCompletion
(client.ts lines 74-84): Content-Type header only, body with stream set
to false. -/
def getCompletionRequest (messages : List Msg) (options : AIChatCompletionOptions Ctx St) :
    JsRequestParameters Msg Ctx St :=
  { headers := [("Content-Type", "application/json")],
    body :=
      { messages := messages, stream := false,
        context := options.context, sessionState := options.sessionState } }

/-- Embeds the request construction of
AIChatProtocolClient.getStreamedCompletion (client.ts lines 103-113):
Content-Type header only, body with stream set to true. -/
def getStreamedCompletionRequest (messages : List Msg)
    (options : AIChatCompletionOptions Ctx St) : JsRequestParameters Msg Ctx St :=
  { headers := [("Content-Type", "application/json")],
    body :=
      { messages := messages, stream := true,
        context := options.context, sessionState := options.sessionState } }

/-- Embeds the JavaScript regular-expression test of client.ts lines 86 and
117: an unanchored search for the character 2 followed by two decimal
digits anywhere in the status string. -/
def test2dd : List Char → Bool
  | c :: a :: b :: rest => (c == '2' && a.isDigit && b.isDigit) || test2dd (a :: b :: rest)
  | _ => false

/-- An HTTP response as seen by the TypeScript non-streaming path: a status
string, a Content-Type header (never inspected by the client code), and the
body already parsed by the runtime. -/
structure JsResponse (B : Type) where
  status : String
  contentType : Option String
  body : B

/-- The error thrown by the TypeScript client on a failed status test. -/
inductive JsError where
  | requestFailed (status : String)

/-- Embeds the response handling of AIChatProtocolClient.getCompletion
(client.ts lines 85-89): throw unless the status string matches the
regular expression, otherwise return the response body as the completion;
no other check is performed. -/
def getCompletionResult (response : JsResponse B) : Except JsError B :=
  if test2dd response.status.data then .ok response.body
  else .error (.requestFailed response.status)

/-! The C# client (src/sdk/dotnet/src/ChatProtocolClient.cs). -/

/-- Error behaviors of System.ClientModel request options: NoThrow
suppresses throwing on error responses. -/
inductive ClientErrorBehaviors where
  | Default
  | NoThrow

/-- The request options consumed by the C# client (only the error behavior
matters to the modelled paths). -/
structure CsRequestOptions where
  ErrorOptions : ClientErrorBehaviors

/-- A chat message: role and content. -/
structure CsChatMessage where
  Role : String
  Content : String

/-- Modelled from the spec: the completion result type (ChatCompletion.cs
is not in the source tree; spec section 6: message plus optional context
and session state). -/
structure CsChatCompletion where
  Message : CsChatMessage
  SessionState : String
  Context : Option String

/-- The empty completion built by GetChatCompletionAsync on a NoThrow error
response (ChatProtocolClient.cs line 113). -/
def emptyCompletion : CsChatCompletion := ⟨⟨"", ""⟩, "", none⟩

/-- Modelled from the spec: the chat completion options
(ChatCompletionOptions.cs is not in the source tree; spec sections 4.2 and
6: messages, stream flag, optional context and session state). The Stream
member is a settable property; mutation is modelled by returning an
updated value. -/
structure CsChatCompletionOptions (Msg Ctx St : Type) where
  Messages : List Msg
  Stream : Bool
  Context : Option Ctx
  SessionState : Option St

/-- Modelled from the spec: the serialized JSON request body produced by
ChatCompletionOptions.SerializeToJson (not in the source tree; spec
section 4.2: body with messages, stream flag, optional context and session
state). -/
structure CsRequestBody (Msg Ctx St : Type) where
  messages : List Msg
  stream : Bool
  context : Option Ctx
  sessionState : Option St

/-- Serialization of the options into the request body, modelled from the
spec (see CsRequestBody). -/
def serializeToJson (o : CsChatCompletionOptions Msg Ctx St) : CsRequestBody Msg Ctx St :=
  ⟨o.Messages, o.Stream, o.Context, o.SessionState⟩

/-- Header update with replace semantics (PipelineRequestHeaders.Set). -/
def setHeader (hs : List (String × String)) (k v : String) : List (String × String) :=
  hs.filter (fun p => !(p.1 == k)) ++ [(k, v)]

/-- Header lookup (PipelineRequestHeaders.TryGetValue). -/
def getHeader (hs : List (String × String)) (k : String) : Option String :=
  (hs.find? (fun p => p.1 == k)).map (fun p => p.2)

/-- The pipeline request built by the C# client: method, headers, body. -/
structure CsRequest (Msg Ctx St : Type) where
  Method : String
  headers : List (String × String)
  body : CsRequestBody Msg Ctx St

/-- Embeds ChatProtocolClient.CreatePipelineMessage (ChatProtocolClient.cs
lines 221-257): POST; a User-Agent header when none is present; the
Content-Type header set to application/json; the Accept header set to
application/json only when the options' Stream flag is false; the body
serialized from the options. -/
def createPipelineMessage (o : CsChatCompletionOptions Msg Ctx St) : CsRequest Msg Ctx St :=
  let hs0 : List (String × String) := []
  let hs1 :=
    if getHeader hs0 "User-Agent" = none
    then setHeader hs0 "User-Agent" "sdk-csharp-microsoft-ai-chatprotocol/1.0.0-beta.1"
    else hs0
  let hs2 := setHeader hs1 "Content-Type" "application/json"
  let hs3 := if o.Stream = false then setHeader hs2 "Accept" "application/json" else hs2
  { Method := "POST", headers := hs3, body := serializeToJson o }

/-- Modelled from the spec: the response classification of the external
System.ClientModel pipeline (PipelineResponse.IsError is not part of this
repository; spec section 4.2: any non-2xx status is a terminal error). -/
def csIsError (status : Nat) : Bool := decide (status < 200 ∨ 300 ≤ status)

/-- An HTTP response as seen by the C# non-streaming path: status code,
Content-Type header, raw body text. -/
structure CsResponse where
  Status : Nat
  ContentType : Option String
  Content : String

/-- The failures surfaced by the C# client as ClientResultException. -/
inductive CsError where
  | httpStatus (status : Nat)
  | contentTypeMissing
  | contentTypeNotJson (contentType : String)
  | jsonParse (content : String)

/-- Substring containment test (System.String.Contains). -/
def containsSub (pat : List Char) : List Char → Bool
  | [] => pat.isEmpty
  | c :: rest => pat.isPrefixOf (c :: rest) || containsSub pat rest

/-- Embeds the response handling of ChatProtocolClient.GetChatCompletionAsync
(ChatProtocolClient.cs lines 94-144), with the JSON parse of the body
abstracted as a parameter: on an error response, return the empty
completion when ErrorOptions is NoThrow, otherwise fail with the status;
then fail unless a Content-Type header containing application/json is
present; finally parse the body. -/
def getChatCompletionAsync (parse : String → Option CsChatCompletion)
    (requestOptions : Option CsRequestOptions) (response : CsResponse) :
    Except CsError CsChatCompletion :=
  let reqOpts := requestOptions.getD ⟨ClientErrorBehaviors.Default⟩
  if csIsError response.Status then
    match reqOpts.ErrorOptions with
    | .NoThrow => .ok emptyCompletion
    | .Default => .error (.httpStatus response.Status)
  else
    match response.ContentType with
    | none => .error .contentTypeMissing
    | some ct =>
      if containsSub ("application/json".data) ct.data then
        match parse response.Content with
        | some c => .ok c
        | none => .error (.jsonParse response.Content)
      else .error (.contentTypeNotJson ct)

/-- Embeds the request-side behavior of GetChatCompletionAsync
(ChatProtocolClient.cs lines 94-100): the pipeline message is created from
the caller's options, which are passed through unmodified (the method
never writes to them); returns the options as left behind and the request
sent. -/
def getChatCompletionAsyncState (o : CsChatCompletionOptions Msg Ctx St) :
    CsChatCompletionOptions Msg Ctx St × CsRequest Msg Ctx St :=
  (o, createPipelineMessage o)

/-- A streaming HTTP response: status code and the content stream's chunks
(the streaming path checks no Content-Type, per the implementation note at
ChatProtocolClient.cs lines 179-181). -/
structure CsStreamResponse where
  Status : Nat
  chunks : List (List Char)

/-- Embeds ChatProtocolClient.GetChatCompletionStreamingAsync
(ChatProtocolClient.cs lines 157-205): sets the caller's options' Stream
flag to true (returned as the first component), builds the request from
the updated options, and on an error response either yields the empty
enumeration (NoThrow) or fails with the status; otherwise the content
stream is enumerated through the NDJSON decoder. -/
def getChatCompletionStreamingAsync (decode : List Char → Option Δ)
    (o : CsChatCompletionOptions Msg Ctx St) (requestOptions : Option CsRequestOptions)
    (response : CsStreamResponse) :
    CsChatCompletionOptions Msg Ctx St × CsRequest Msg Ctx St ×
      Except CsError (List Δ × Option (List Char)) :=
  let reqOpts := requestOptions.getD ⟨ClientErrorBehaviors.Default⟩
  let o' := { o with Stream := true }
  let msg := createPipelineMessage o'
  let result : Except CsError (List Δ × Option (List Char)) :=
    if csIsError response.Status then
      match reqOpts.ErrorOptions with
      | .NoThrow => .ok ([], none)
      | .Default => .error (.httpStatus response.Status)
    else .ok (runDecoder decode response.chunks [])
  (o', msg, result)

/-- C5 counterexample: the C# non-streaming call with ErrorOptions set to
NoThrow returns a completion value (the empty completion) for a 404
response instead of failing, so the claim that a non-2xx response always
fails with a terminal error and never returns a completion value is false
as stated. -/
theorem c5_nothrow_counterexample :
    getChatCompletionAsync (fun _ => none) (some ⟨ClientErrorBehaviors.NoThrow⟩)
      ⟨404, none, ""⟩ = .ok emptyCompletion := rfl

/-- C5 (amended): for every HTTP response with a non-2xx status, the
TypeScript non-streaming call and the C# non-streaming call with default
error options fail with a terminal error carrying that status, with no
parsing of the response body (the result is independent of the body and of
the parser); with ErrorOptions = NoThrow the C# call instead returns the
empty completion, also without parsing the body. -/
theorem non2xx_terminal (B : Type) (body : B) (c0 c1 c2 : Char)
    (h0 : c0 ≠ '2') (ct : Option String)
    (parse : String → Option CsChatCompletion) (resp : CsResponse)
    (hs : ¬(200 ≤ resp.Status ∧ resp.Status < 300)) :
    getCompletionResult (JsResponse.mk (String.mk [c0, c1, c2]) ct body) =
      .error (.requestFailed (String.mk [c0, c1, c2])) ∧
    getChatCompletionAsync parse none resp = .error (.httpStatus resp.Status) ∧
    getChatCompletionAsync parse (some ⟨ClientErrorBehaviors.Default⟩) resp =
      .error (.httpStatus resp.Status) ∧
    getChatCompletionAsync parse (some ⟨ClientErrorBehaviors.NoThrow⟩) resp =
      .ok emptyCompletion := by
  have hcs : csIsError resp.Status = true := by
    simp only [csIsError, decide_eq_true_eq]
    omega
  have hb : (c0 == '2') = false := by
    simp [h0]
  have ht : test2dd [c0, c1, c2] = false := by
    simp [test2dd, hb]
  refine ⟨?_, ?_, ?_, ?_⟩
  · simp [getCompletionResult, ht]
  · simp [getChatCompletionAsync, hcs]
  · simp [getChatCompletionAsync, hcs]
  · simp [getChatCompletionAsync, hcs]

theorem non2xx_terminal_witness :
    getCompletionResult (JsResponse.mk (String.mk ['4', '0', '4']) none (0 : Nat)) =
      .error (.requestFailed (String.mk ['4', '0', '4'])) ∧
    getChatCompletionAsync (fun _ => none) none ⟨404, none, ""⟩ =
      .error (.httpStatus 404) ∧
    getChatCompletionAsync (fun _ => none) (some ⟨ClientErrorBehaviors.Default⟩)
      ⟨404, none, ""⟩ = .error (.httpStatus 404) ∧
    getChatCompletionAsync (fun _ => none) (some ⟨ClientErrorBehaviors.NoThrow⟩)
      ⟨404, none, ""⟩ = .ok emptyCompletion :=
  non2xx_terminal Nat 0 '4' '0' '4' (by decide) none (fun _ => none)
    ⟨404, none, ""⟩ (by decide)

/-- C6 counterexample: the TypeScript non-streaming request carries no
Accept header at all, and the C# non-streaming path called with an options
value whose Stream flag is already true sends a body with stream = true;
both contradict the claim that the stream field is true exactly for the
streaming method and that Accept is present iff the request is
non-streaming. -/
theorem c6_counterexample :
    getHeader (getCompletionRequest ([] : List Unit)
      (AIChatCompletionOptions.mk (none : Option Unit) (none : Option Unit))).headers
      "Accept" = none ∧
    (createPipelineMessage
      (CsChatCompletionOptions.mk ([] : List Unit) true (none : Option Unit)
        (none : Option Unit))).body.stream = true := by
  exact ⟨rfl, rfl⟩

/-- C6 (amended): every request has JSON body with the fields messages,
stream, context and sessionState and a Content-Type header equal to
application/json; the stream field is false for the TypeScript
non-streaming method, true for the TypeScript streaming method, equal to
the caller's (possibly pre-set) Stream flag for the C# non-streaming
method, and forced to true by the C# streaming method; the C# client
carries the Accept header equal to application/json iff the options'
Stream flag is false, while the TypeScript client never sets Accept. -/
theorem request_construction (Msg Ctx St Δ : Type) (msgs : List Msg)
    (jsOpts : AIChatCompletionOptions Ctx St) (o : CsChatCompletionOptions Msg Ctx St)
    (decode : List Char → Option Δ) (reqOpts : Option CsRequestOptions)
    (resp : CsStreamResponse) :
    (getCompletionRequest msgs jsOpts).headers = [("Content-Type", "application/json")] ∧
    (getCompletionRequest msgs jsOpts).body =
      JsRequestBody.mk msgs false jsOpts.context jsOpts.sessionState ∧
    (getStreamedCompletionRequest msgs jsOpts).headers =
      [("Content-Type", "application/json")] ∧
    (getStreamedCompletionRequest msgs jsOpts).body =
      JsRequestBody.mk msgs true jsOpts.context jsOpts.sessionState ∧
    (createPipelineMessage o).Method = "POST" ∧
    (createPipelineMessage o).body =
      CsRequestBody.mk o.Messages o.Stream o.Context o.SessionState ∧
    getHeader (createPipelineMessage o).headers "Content-Type" =
      some "application/json" ∧
    (getHeader (createPipelineMessage o).headers "Accept" = some "application/json" ↔
      o.Stream = false) ∧
    (getChatCompletionStreamingAsync decode o reqOpts resp).2.1 =
      createPipelineMessage
        (CsChatCompletionOptions.mk o.Messages true o.Context o.SessionState) := by
  obtain ⟨mctx, msst⟩ := jsOpts
  obtain ⟨ms, st, cx, ss⟩ := o
  cases st
  · exact ⟨rfl, rfl, rfl, rfl, rfl, rfl, rfl, iff_of_true rfl rfl, rfl⟩
  · have hnone : getHeader (createPipelineMessage
        (CsChatCompletionOptions.mk ms true cx ss)).headers "Accept" =
        (none : Option String) := rfl
    refine ⟨rfl, rfl, rfl, rfl, rfl, rfl, rfl, ?_, rfl⟩
    rw [hnone]
    simp

/-- C7 counterexample: the TypeScript non-streaming call performs no
content-type check: a 2xx response with no Content-Type header still
returns the runtime-parsed body as the completion value, contradicting the
claim that every non-streaming call fails with a ContentTypeError in that
case. -/
theorem c7_counterexample :
    getCompletionResult (JsResponse.mk (String.mk ['2', '0', '0']) none (42 : Nat)) =
      .ok 42 := rfl

/-- C7 (amended): on the C# non-streaming path, a 2xx response whose
Content-Type header is missing, or does not contain application/json,
fails with a content-type error and returns no completion value; the
TypeScript client performs no such check and returns the body whatever the
Content-Type header is. -/
theorem content_type_check (parse : String → Option CsChatCompletion)
    (reqOpts : Option CsRequestOptions) (status : Nat) (ct content : String)
    (h2xx : 200 ≤ status ∧ status < 300)
    (hct : containsSub ("application/json".data) ct.data = false)
    (B : Type) (body : B) (s : String) (jct : Option String)
    (hjs : test2dd s.data = true) :
    getChatCompletionAsync parse reqOpts (CsResponse.mk status none content) =
      .error .contentTypeMissing ∧
    getChatCompletionAsync parse reqOpts (CsResponse.mk status (some ct) content) =
      .error (.contentTypeNotJson ct) ∧
    getCompletionResult (JsResponse.mk s jct body) = .ok body := by
  have he : csIsError status = false := by
    simp only [csIsError, decide_eq_false_iff_not]
    omega
  refine ⟨?_, ?_, ?_⟩
  · simp [getChatCompletionAsync, he]
  · simp [getChatCompletionAsync, he, hct]
  · simp [getCompletionResult, hjs]

theorem content_type_check_witness :
    getChatCompletionAsync (fun _ => none) none (CsResponse.mk 200 none "") =
      .error .contentTypeMissing ∧
    getChatCompletionAsync (fun _ => none) none
      (CsResponse.mk 200 (some "text/html") "") =
      .error (.contentTypeNotJson "text/html") ∧
    getCompletionResult (JsResponse.mk "200" none (7 : Nat)) = .ok 7 :=
  content_type_check (fun _ => none) none 200 "text/html" "" (by omega)
    (by decide) Nat 7 "200" none (by decide)

/-- C9: with ErrorOptions set to NoThrow and an error response, the C#
client does not throw: the non-streaming call returns the empty completion
(a message with empty role and empty content), and the streaming call
returns a result whose enumeration yields no items. -/
theorem nothrow_error_behavior (parse : String → Option CsChatCompletion)
    (resp : CsResponse) (hs : csIsError resp.Status = true)
    (Msg Ctx St Δ : Type) (decode : List Char → Option Δ)
    (o : CsChatCompletionOptions Msg Ctx St) (sresp : CsStreamResponse)
    (hs2 : csIsError sresp.Status = true) :
    getChatCompletionAsync parse (some ⟨ClientErrorBehaviors.NoThrow⟩) resp =
      .ok (CsChatCompletion.mk (CsChatMessage.mk "" "") "" none) ∧
    (getChatCompletionStreamingAsync decode o (some ⟨ClientErrorBehaviors.NoThrow⟩)
      sresp).2.2 = .ok ([], none) := by
  constructor
  · simp [getChatCompletionAsync, hs, emptyCompletion]
  · simp [getChatCompletionStreamingAsync, hs2]

theorem nothrow_error_behavior_witness :
    getChatCompletionAsync (fun _ => none) (some ⟨ClientErrorBehaviors.NoThrow⟩)
      ⟨500, none, ""⟩ =
      .ok (CsChatCompletion.mk (CsChatMessage.mk "" "") "" none) ∧
    (getChatCompletionStreamingAsync (fun _ => (none : Option Nat))
      (CsChatCompletionOptions.mk ([] : List Unit) false (none : Option Unit)
        (none : Option Unit))
      (some ⟨ClientErrorBehaviors.NoThrow⟩) ⟨500, []⟩).2.2 = .ok ([], none) :=
  nothrow_error_behavior (fun _ => none) ⟨500, none, ""⟩ (by decide)
    Unit Unit Unit Nat (fun _ => none)
    (CsChatCompletionOptions.mk [] false none none) ⟨500, []⟩ (by decide)

/-- C10: the C# streaming call sets the caller-supplied options' Stream
flag to true, a mutation that persists after the call (modelled by the
returned options value); the non-streaming call passes the options through
without resetting Stream; hence a subsequent non-streaming call reusing the
same options sends a body with stream = true and omits the Accept header. -/
theorem streaming_sets_stream_flag (Msg Ctx St Δ : Type) (decode : List Char → Option Δ)
    (o : CsChatCompletionOptions Msg Ctx St) (reqOpts : Option CsRequestOptions)
    (resp : CsStreamResponse) :
    ((getChatCompletionStreamingAsync decode o reqOpts resp).1).Stream = true ∧
    (getChatCompletionAsyncState
      (getChatCompletionStreamingAsync decode o reqOpts resp).1).1 =
      (getChatCompletionStreamingAsync decode o reqOpts resp).1 ∧
    ((getChatCompletionAsyncState
      (getChatCompletionStreamingAsync decode o reqOpts resp).1).2).body.stream = true ∧
    getHeader ((getChatCompletionAsyncState
      (getChatCompletionStreamingAsync decode o reqOpts resp).1).2).headers "Accept" =
      none := by
  obtain ⟨ms, st, cx, ss⟩ := o
  exact ⟨rfl, rfl, rfl, rfl⟩

end AIChat
